import Mathlib

/-!
Verification development for the `ocilot` OCI registry client library.

The Rust sources are shallowly embedded: byte buffers become `List Nat`
(each element a byte value), machine integers become `Nat` with explicit
`% 2 ^ 32` where 32-bit overflow matters, fallible Rust functions become
`Except`/`Option` results, and a Rust panic (an `unwrap` that can fail)
is modelled as the `none`/dedicated outcome of the embedding. Network
interactions of the blob writer are modelled by an explicit request
trace, with the registry environment (the `Location` header granted by
the upload-start POST, the success of each response) supplied as
parameters; the modelled runs are the ones in which every HTTP response
is successful.
-/

deriving instance DecidableEq for Except

namespace Ocilot

/-! ## Basic string helpers

Rust's `str::split_once`, `contains`, `starts_with` and `ends_with`,
embedded over `List Char` / `String`. -/

/-- Rust `str::split_once(c)` on a character list: splits at the first
occurrence of `c`, returning the parts before and after it. -/
def splitOnceList (c : Char) : List Char → Option (List Char × List Char)
  | [] => none
  | x :: xs =>
    if x = c then some ([], xs)
    else (splitOnceList c xs).map fun p => (x :: p.1, p.2)

/-- Rust `str::split_once(c)` on a `String`. -/
def splitOnceStr (s : String) (c : Char) : Option (String × String) :=
  (splitOnceList c s.data).map fun p => (String.mk p.1, String.mk p.2)

/-- Substring containment on character lists (Rust `str::contains` with a
string pattern). -/
def listContainsSub : List Char → List Char → Bool
  | [], pat => pat.isEmpty
  | x :: xs, pat => pat.isPrefixOf (x :: xs) || listContainsSub xs pat

/-- Rust `str::contains(pat)` for a string pattern. -/
def strContainsSub (s pat : String) : Bool :=
  listContainsSub s.data pat.data

/-- Rust `str::starts_with(pat)`. -/
def strStartsWith (s pat : String) : Bool :=
  pat.data.isPrefixOf s.data

/-- Rust `str::ends_with(pat)`. -/
def strEndsWith (s pat : String) : Bool :=
  pat.data.isSuffixOf s.data

/-- Rust `str::strip_prefix(pat)`: `some` of the remainder when `pat` is
a prefix, else `none`. -/
def stripPrefixStr (s pat : String) : Option String :=
  if strStartsWith s pat then some (String.mk (s.data.drop pat.data.length)) else none

/-! ## SHA-256

The `sha2` crate consumed by the writer, embedded concretely: 32-bit
words are `Nat` reduced mod `2 ^ 32`. -/

/-- 32-bit truncation. -/
def w32 (x : Nat) : Nat := x % 4294967296

/-- 32-bit addition. -/
def add32 (a b : Nat) : Nat := w32 (a + b)

/-- 32-bit right rotation by `n`. -/
def rotr32 (n x : Nat) : Nat :=
  w32 ((x >>> n) ||| (x <<< (32 - n)))

/-- Bitwise complement within 32 bits. -/
def not32 (x : Nat) : Nat := x ^^^ 4294967295

/-- SHA-256 round constants (FIPS 180-4, in decimal). -/
def sha256K : List Nat :=
  [1116352408, 1899447441, 3049323471, 3921009573, 961987163, 1508970993,
   2453635748, 2870763221, 3624381080, 310598401, 607225278, 1426881987,
   1925078388, 2162078206, 2614888103, 3248222580, 3835390401, 4022224774,
   264347078, 604807628, 770255983, 1249150122, 1555081692, 1996064986,
   2554220882, 2821834349, 2952996808, 3210313671, 3336571891, 3584528711,
   113926993, 338241895, 666307205, 773529912, 1294757372, 1396182291,
   1695183700, 1986661051, 2177026350, 2456956037, 2730485921, 2820302411,
   3259730800, 3345764771, 3516065817, 3600352804, 4094571909, 275423344,
   430227734, 506948616, 659060556, 883997877, 958139571, 1322822218,
   1537002063, 1747873779, 1955562222, 2024104815, 2227730452, 2361852424,
   2428436474, 2756734187, 3204031479, 3329325298]

/-- SHA-256 initial hash state (FIPS 180-4, in decimal). -/
def sha256H0 : List Nat :=
  [1779033703, 3144134277, 1013904242, 2773480762,
   1359893119, 2600822924, 528734635, 1541459225]

/-- Big-endian bytes of `x` using `n` bytes. -/
def beBytes (n x : Nat) : List Nat :=
  (List.range n).reverse.map fun i => (x >>> (8 * i)) % 256

/-- SHA-256 message padding: append `0x80`, zero bytes to a 56 mod 64
boundary, then the 64-bit big-endian bit length. -/
def sha256Pad (msg : List Nat) : List Nat :=
  let len := msg.length
  let zeroCount := (64 + 55 - len % 64) % 64
  msg ++ [0x80] ++ List.replicate zeroCount 0 ++ beBytes 8 (8 * len)

/-- Group a flat byte list into 4-byte big-endian words. -/
def bytesToWords : List Nat → List Nat
  | b0 :: b1 :: b2 :: b3 :: rest =>
    (((b0 * 256 + b1) * 256 + b2) * 256 + b3) :: bytesToWords rest
  | _ => []

/-- Group a flat byte list into 64-byte blocks. -/
def toBlocks (bytes : List Nat) : List (List Nat) :=
  if h : bytes = [] then []
  else
    have : bytes.length - 64 < bytes.length := by
      have : 0 < bytes.length := List.length_pos.mpr h
      omega
    bytes.take 64 :: toBlocks (bytes.drop 64)
termination_by bytes.length

/-- Extend 16 message words to the 64-entry SHA-256 message schedule. -/
def sha256Schedule (ws : Array Nat) : Array Nat :=
  (List.range 48).foldl
    (fun acc i =>
      let w15 := acc.getD (i + 1) 0
      let w2 := acc.getD (i + 14) 0
      let s0 := (rotr32 7 w15) ^^^ (rotr32 18 w15) ^^^ (w15 >>> 3)
      let s1 := (rotr32 17 w2) ^^^ (rotr32 19 w2) ^^^ (w2 >>> 10)
      acc.push (add32 (add32 (acc.getD i 0) s0) (add32 (acc.getD (i + 9) 0) s1)))
    ws

/-- One SHA-256 compression round. -/
def sha256Round (st : List Nat) (k w : Nat) : List Nat :=
  match st with
  | [a, b, c, d, e, f, g, h] =>
    let s1 := (rotr32 6 e) ^^^ (rotr32 11 e) ^^^ (rotr32 25 e)
    let ch := (e &&& f) ^^^ ((not32 e) &&& g)
    let t1 := add32 h (add32 s1 (add32 ch (add32 k w)))
    let s0 := (rotr32 2 a) ^^^ (rotr32 13 a) ^^^ (rotr32 22 a)
    let mj := (a &&& b) ^^^ (a &&& c) ^^^ (b &&& c)
    let t2 := add32 s0 mj
    [add32 t1 t2, a, b, c, add32 d t1, e, f, g]
  | other => other

/-- Compress one 64-byte block into the running hash state. -/
def sha256Compress (h : List Nat) (block : List Nat) : List Nat :=
  let ws := sha256Schedule (Array.mk (bytesToWords block))
  let final := (List.range 64).foldl
    (fun st i => sha256Round st (sha256K.getD i 0) (ws.getD i 0)) h
  List.zipWith add32 h final

/-- SHA-256 digest of a byte list, as 32 bytes. -/
def sha256Bytes (msg : List Nat) : List Nat :=
  let hs := (toBlocks (sha256Pad msg)).foldl sha256Compress sha256H0
  hs.flatMap (beBytes 4)

/-- Lowercase hexadecimal digit for `n < 16`. -/
def hexDigit (n : Nat) : Char :=
  if n < 10 then Char.ofNat (48 + n) else Char.ofNat (87 + n)

/-- `base16::encode_lower`: lowercase hex of a byte list. -/
def hexLower (bytes : List Nat) : String :=
  String.mk (bytes.flatMap fun b => [hexDigit (b / 16), hexDigit (b % 16)])

/-- The digest string the writer produces: `sha256:` plus lowercase hex
of the SHA-256 of the bytes. -/
def digestStr (bytes : List Nat) : String :=
  "sha256:" ++ hexLower (sha256Bytes bytes)

/-! ## `models.rs`: `Compression`, `MediaType`, `Platform` -/

/-- `Compression` enum from `models.rs`. -/
inductive Compression where
  | gzip
  | bzip2
  | lz4
  | xz
  | zstd
  | none
deriving DecidableEq

/-- `Compression::new`: classify a media-type string by its suffix. -/
def Compression.new (s : String) : Compression :=
  if strEndsWith s ".gz" || strEndsWith s ".gzip2" then .gzip
  else if strEndsWith s ".xz" then .xz
  else if strEndsWith s ".lz4" then .lz4
  else if strEndsWith s ".zst" then .zstd
  else if strEndsWith s ".bz2" || strEndsWith s ".bzip2" then .bzip2
  else .none

/-- `Compression::to_ext`. -/
def Compression.to_ext : Compression → String
  | .gzip => ".gz"
  | .bzip2 => ".bz2"
  | .lz4 => ".lz4"
  | .xz => ".xz"
  | .zstd => ".zst"
  | .none => ""

/-- `MediaType` enum from `models.rs`. -/
inductive MediaType where
  | imageIndex
  | manifest
  | config
  | layer (c : Compression)
  | dockerManifestList
  | dockerManifest
  | dockerContainerImage
  | dockerImageRootfs (c : Compression)
deriving DecidableEq

/-- The `Serialize` impl for `MediaType`: the wire string. -/
def MediaType.serialize : MediaType → String
  | .imageIndex => "application/vnd.oci.image.index.v1+json"
  | .manifest => "application/vnd.oci.image.manifest.v1+json"
  | .config => "application/vnd.oci.image.config.v1+json"
  | .layer c => "application/vnd.oci.image.layer.v1.tar" ++ c.to_ext
  | .dockerManifestList => "application/vnd.docker.distribution.manifest.list.v2+json"
  | .dockerManifest => "application/vnd.docker.distribution.manifest.v2+json"
  | .dockerContainerImage => "application/vnd.docker.container.image.v1+json"
  | .dockerImageRootfs c => "application/vnd.docker.image.rootfs.diff.tar" ++ c.to_ext

/-- The `Deserialize` impl for `MediaType`; an unknown variant is an
error carrying the offending string. -/
def MediaType.deserialize (s : String) : Except String MediaType :=
  if strStartsWith s "application/vnd.docker.image.rootfs.diff.tar" then
    .ok (.dockerImageRootfs (Compression.new s))
  else if strStartsWith s "application/vnd.oci.image.layer.v1.tar" then
    .ok (.layer (Compression.new s))
  else if s = "application/vnd.docker.distribution.manifest.list.v2+json" then
    .ok .dockerManifestList
  else if s = "application/vnd.docker.distribution.manifest.v2+json" then
    .ok .dockerManifest
  else if s = "application/vnd.docker.container.image.v1+json" then
    .ok .dockerContainerImage
  else if s = "application/vnd.oci.image.manifest.v1+json" then
    .ok .manifest
  else if s = "application/vnd.oci.image.index.v1+json" then
    .ok .imageIndex
  else if s = "application/vnd.oci.image.config.v1+json" then
    .ok .config
  else
    .error s

/-- `MediaType::compression`: `DockerImageRootfs(None)` defaults to
gzip (legacy Docker), other layer kinds report their stored value,
non-layer kinds report `None`. -/
def MediaType.compression : MediaType → Compression
  | .dockerImageRootfs c => if c = Compression.none then .gzip else c
  | .layer c => c
  | _ => .none

/-- `Platform` struct from `models.rs`. -/
structure Platform where
  architecture : String
  os : String
deriving DecidableEq

/-- `impl From<String> for Platform`: Rust calls
`value.split_once("/").unwrap()`, which panics when the string has no
`/`. The panic is modelled as `none`. -/
def Platform.fromString (s : String) : Option Platform :=
  (splitOnceStr s '/').map fun p => { architecture := p.2, os := p.1 }

/-! ## `uri.rs`: `Algorithm`, `Reference` -/

/-- Error kinds of `error.rs` used by the embedded operations. -/
inductive OciError where
  | invalidAlgorithm (algorithm : String)
  | indexNoPlatform (platform : Platform)
  | directLoadImage
  | pushImage
deriving DecidableEq

/-- `Algorithm` enum from `uri.rs`. -/
inductive Algorithm where
  | sha256
  | sha512
deriving DecidableEq

/-- `Algorithm::from_str`. -/
def Algorithm.fromStr (s : String) : Except OciError Algorithm :=
  if s = "sha256" then .ok .sha256
  else if s = "sha512" then .ok .sha512
  else .error (.invalidAlgorithm s)

/-- The `Display` impl for `Algorithm`. -/
def Algorithm.toStr : Algorithm → String
  | .sha256 => "sha256"
  | .sha512 => "sha512"

/-- `Reference` enum from `uri.rs`. -/
inductive Reference where
  | tag (t : String)
  | digest (algorithm : Algorithm) (value : String)
deriving DecidableEq

/-- `Reference::from_str`: a string containing `:` is split at the
first `:` and parsed as an algorithm-qualified digest, anything else is
a tag. -/
def Reference.fromStr (s : String) : Except OciError Reference :=
  match splitOnceStr s ':' with
  | some (a, v) => (Algorithm.fromStr a).map fun alg => .digest alg v
  | Option.none => .ok (.tag s)

/-- The `Display` impl for `Reference`. -/
def Reference.toStr : Reference → String
  | .tag t => t
  | .digest a v => Algorithm.toStr a ++ ":" ++ v

/-! ## `layer.rs` / `image.rs` / `index.rs` data model -/

/-- The `Layer` struct from `layer.rs`: a blob descriptor (also used
for index manifest entries, where `platform` is set). -/
structure Layer where
  media_type : MediaType
  size : Nat
  digest : String
  platform : Option Platform
deriving DecidableEq

/-- The `Image` struct from `image.rs`; `platform` is the transient,
never-serialized hint. -/
structure Image where
  schema_version : Nat
  media_type : MediaType
  config : Layer
  layers : List Layer
  platform : Option Platform
deriving DecidableEq

/-- `Image::fetch(uri, platform)`: requires a digest reference (else
`DirectLoadImage`), fetches the manifest at the reference string and
stores the supplied platform hint. The registry's manifest store is
abstracted as `env`, keyed by the reference string. -/
def Image.fetch (env : String → Except OciError Image) (ref : Reference)
    (platform : Option Platform) : Except OciError Image :=
  match ref with
  | .digest _ _ => (env (Reference.toStr ref)).map fun img => { img with platform := platform }
  | .tag _ => .error .directLoadImage

/-- `Index::fetch_image(uri, platform)` from `index.rs`, embedded over
the index's manifest list. `current` stands for `Platform::default()`
(the host platform) and `env` for the registry's manifest store. With a
requested platform the first matching entry is used (else
`IndexNoPlatform`); with none, the first entry matching `current`, else
the first entry, else `Ok(None)`. Each match is re-fetched through a
URI rebuilt from the entry's digest. -/
def Index.fetch_image (env : String → Except OciError Image) (current : Platform)
    (manifests : List Layer) (platform : Option Platform) :
    Except OciError (Option Image) :=
  match platform with
  | some p =>
    match manifests.find? (fun x => x.platform = some p) with
    | Option.none => .error (.indexNoPlatform p)
    | some oci => do
      let r ← Reference.fromStr oci.digest
      let img ← Image.fetch env r (some p)
      pure (some img)
  | Option.none =>
    match manifests.find? (fun x => x.platform = some current) with
    | some oci => do
      let r ← Reference.fromStr oci.digest
      let img ← Image.fetch env r (some current)
      pure (some img)
    | Option.none =>
      match manifests with
      | [] => pure Option.none
      | oci :: _ => do
        let r ← Reference.fromStr oci.digest
        let img ← Image.fetch env r oci.platform
        pure (some img)

/-! ## `Layer::copy` (`layer.rs`) -/

/-- Minimum chunk size for network operations (5 MiB). -/
def MIN_CHUNK_SIZE : Nat := 5 * 1024 * 1024

/-- Maximum chunk size for network operations (128 MiB). -/
def MAX_CHUNK_SIZE : Nat := 128 * 1024 * 1024

/-- Rust `Ord::clamp` on `usize` values (with `lo ≤ hi`). -/
def rustClamp (x lo hi : Nat) : Nat :=
  if x < lo then lo else if hi < x then hi else x

/-- The chunk size `Layer::copy` uses: `(size / 40).clamp(MIN, MAX)`. -/
def copyChunkSize (size : Nat) : Nat :=
  rustClamp (size / 40) MIN_CHUNK_SIZE MAX_CHUNK_SIZE

theorem copyChunkSize_pos (size : Nat) : 0 < copyChunkSize size := by
  unfold copyChunkSize rustClamp MIN_CHUNK_SIZE MAX_CHUNK_SIZE
  split
  · omega
  · split <;> omega

/-- Error kinds of `Layer::copy`. -/
inductive CopyError where
  | layerRead
deriving DecidableEq

/-- The `while index < size` loop of `Layer::copy`, with the loop's
`read_size = min(chunk_size, size - index)` written inline. The reader
is the byte list `src` (a `read_exact` that outruns it is the EOF
error), the writer collects each `write_all` buffer; `idx` advances by
the full chunk size each iteration, exactly as in the source. -/
def copyLoop (chunk : Nat) (hc : 0 < chunk) (src : List Nat)
    (written : List (List Nat)) (idx size : Nat) :
    Except CopyError (List (List Nat)) :=
  if h : idx < size then
    if min chunk (size - idx) ≤ src.length then
      copyLoop chunk hc (src.drop (min chunk (size - idx)))
        (written ++ [src.take (min chunk (size - idx))]) (idx + chunk) size
    else .error .layerRead
  else .ok written
termination_by size - idx
decreasing_by omega

/-- `Layer::copy(reader, writer, size)`: on success returns the list of
buffers passed to `write_all`, in order. -/
def Layer.copy (src : List Nat) (size : Nat) : Except CopyError (List (List Nat)) :=
  copyLoop (copyChunkSize size) (copyChunkSize_pos size) src [] 0 size

/-! ## The blob `Writer` state machine (`layer.rs`)

`Writer::poll_write` is embedded at the granularity of one caller-level
write driven to completion, on the path where every registry response
is successful and the upload-start POST grants the `Location` header
`loc`. The `Sha256` hasher state is represented by the list of bytes
fed to it so far. -/

/-- The mutable fields of `Writer` that the write path touches. -/
structure WriterState where
  upload_url : Option String
  index : Nat
  size : Nat
  hashed : List Nat
deriving DecidableEq

/-- `Writer` state as built by `Layer::create`. -/
def WriterState.init (size : Nat) : WriterState :=
  { upload_url := Option.none, index := 0, size := size, hashed := [] }

/-- One HTTP request issued by the writer, with the data the claims
talk about: bodies, `Content-Range` offsets, digest query values. -/
inductive Request where
  | post (repo : String) (body : List Nat) (digest : String)
  | start (repo : String)
  | patch (location : String) (body : List Nat) (rangeFirst rangeLast : Nat)
  | put (location : String) (body : List Nat) (digest : String) (rangeFirst rangeLast : Nat)
deriving DecidableEq

/-- Discriminator for `Request`, used to talk about request shapes
without forcing digest computations. -/
inductive RequestKind where
  | post
  | start
  | patch
  | put
deriving DecidableEq

/-- The kind of a request. -/
def Request.kind : Request → RequestKind
  | .post .. => .post
  | .start .. => .start
  | .patch .. => .patch
  | .put .. => .put

/-- The branch of `poll_write` taken when `upload_url` is set: the
final chunk (position plus buffer reaches `size`) becomes the finishing
PUT with the digest and `Content-Range: index-size`; any other buffer
becomes a PATCH with `Content-Range: index-(index+len)`. The running
hasher is updated with the buffer and `index` advances by its length. -/
def writeChunked (u : String) (st : WriterState) (buf : List Nat) :
    List Request × WriterState :=
  if st.size ≤ st.index + buf.length then
    let hashed := st.hashed ++ buf
    ([Request.put u buf (digestStr hashed) st.index st.size],
     { st with hashed := hashed, index := st.index + buf.length })
  else
    ([Request.patch u buf st.index (st.index + buf.length)],
     { st with hashed := st.hashed ++ buf, index := st.index + buf.length })

/-- One caller-level write against `Writer::poll_write`: with no upload
started, a buffer of exactly `size` bytes goes through the monolithic
POST (and `index` is set to the buffer length); otherwise the writer
issues the upload-start POST, records the granted location `loc`,
resets `index` to 0 and re-enters the write with the same buffer. -/
def writeOnce (repo loc : String) (st : WriterState) (buf : List Nat) :
    List Request × WriterState :=
  match st.upload_url with
  | some u => writeChunked u st buf
  | Option.none =>
    if buf.length = st.size then
      let hashed := st.hashed ++ buf
      ([Request.post repo buf (digestStr hashed)],
       { st with hashed := hashed, index := buf.length })
    else
      let st' := { st with upload_url := some loc, index := 0 }
      let r := writeChunked loc st' buf
      (Request.start repo :: r.1, r.2)

/-- A sequence of caller writes, concatenating the requests issued. -/
def runWrites (repo loc : String) (st : WriterState) :
    List (List Nat) → List Request × WriterState
  | [] => ([], st)
  | b :: bs =>
    let r1 := writeOnce repo loc st b
    let r2 := runWrites repo loc r1.2 bs
    (r1.1 ++ r2.1, r2.2)

/-- `Writer::layer()`: the descriptor built from the finished writer —
digest is `sha256:` plus the lowercase hex of the finalized running
hash, size is the writer's `index`, platform is `None`. -/
def Writer.layer (mt : MediaType) (st : WriterState) : Layer :=
  { media_type := mt, size := st.index, digest := digestStr st.hashed,
    platform := Option.none }

/-- `Registry::push_manifest` (`registry.rs`): the value's JSON bytes
are abstracted as `serialized` (serde is external); `respSuccess` is
the status of the manifest PUT. On success the returned descriptor
carries the byte length and `sha256:` hex digest of those bytes. -/
def Registry.push_manifest (mt : MediaType) (serialized : List Nat)
    (platform : Option Platform) (respSuccess : Bool) : Except OciError Layer :=
  if respSuccess then
    .ok { media_type := mt, size := serialized.length,
          digest := digestStr serialized, platform := platform }
  else .error .pushImage

/-! ## Upload URLs built by `SimpleRegistryClient` (`client.rs`) -/

/-- The path `SimpleRegistryClient::upload_part` joins onto the
registry base URL: `format!("/v2/{}/blobs/uploads/{}", upload, upload)`
with `upload` the captured `Location` header value. -/
def uploadPartUrlPath (upload : String) : String :=
  "/v2/" ++ upload ++ "/blobs/uploads/" ++ upload

/-- The path-plus-query `SimpleRegistryClient::finish_blob_upload`
builds: the same joined path with `?digest={d}` set as the query. -/
def finishBlobUploadUrlPath (upload digest : String) : String :=
  uploadPartUrlPath upload ++ "?digest=" ++ digest

/-! ## `Image::filesystem` (`image.rs`): the flattener -/

/-- The whiteout marker constant from `image.rs`. -/
def WHITEOUT : String := ".wh."

/-- One tar entry as the flattener inspects it: its header path and
whether `header.entry_type().is_file()` holds. -/
structure TarEntry where
  path : String
  isFile : Bool
deriving DecidableEq

/-- The per-layer entry loop of `Image::filesystem`: an entry whose
path contains `.wh.`, or a regular file whose path is already in the
seen set, is skipped; every other entry is appended to the output and
its path inserted into the seen set. -/
def fsLayer (seen : List String) (out : List TarEntry) :
    List TarEntry → List String × List TarEntry
  | [] => (seen, out)
  | e :: rest =>
    if strContainsSub e.path WHITEOUT || (e.isFile && seen.contains e.path) then
      fsLayer seen out rest
    else
      fsLayer (e.path :: seen) (out ++ [e]) rest

/-- `Image::filesystem`: iterate the image's layers in reverse order
with one shared seen-set, emitting one output tar stream. Each layer is
given as its (already decompressed) entry list. -/
def Image.filesystem (layers : List (List TarEntry)) : List TarEntry :=
  (layers.reverse.foldl (fun st layer => fsLayer st.1 st.2 layer) ([], [])).2

/-! ## `discover_auth` (`registry.rs`): the credential chain -/

/-- `Token` from `models.rs`. -/
inductive Token where
  | bearer (t : String)
  | basic (username password : String)
deriving DecidableEq

/-- `DockerAuth`: one entry of a config file's `auths` map. -/
structure DockerAuth where
  auth : Option String
  identitytoken : Option String
deriving DecidableEq

/-- `DockerConfig`: the `auths` map, as an association list keyed by
registry base. -/
structure DockerConfig where
  auths : List (String × DockerAuth)
deriving DecidableEq

/-- The observable state of one candidate config file: absent on disk,
present but unreadable (`read_to_string` fails), present but not valid
JSON (`serde_json::from_str` fails), or parsed. -/
inductive FileProbe where
  | absent
  | readFailed
  | parseFailed
  | config (c : DockerConfig)
deriving DecidableEq

/-- The error kinds `discover_auth` can surface. -/
inductive AuthError where
  | file
  | configDeserialize
  | authorization (reason : String)
deriving DecidableEq

/-- Result of the embedded `discover_auth`: a token (or none), a typed
error, or a Rust panic (a failing `unwrap` on base64 decoding or
prefix stripping). -/
inductive AuthOutcome where
  | ok (t : Option Token)
  | err (e : AuthError)
  | crash
deriving DecidableEq

/-- The external world `discover_auth` consults: the two candidate
config files (`~/.finch/config.json` then `~/.docker/config.json`), the
OS keychain (`Entry::new` result, then `get_password` result), base64
decoding composed with UTF-8-lossy conversion (`none` = invalid
base64, which the source unwraps), and the two ECR token APIs. -/
structure AuthEnv where
  base : String
  files : List FileProbe
  keychain : Except Unit (Except Unit String)
  b64 : String → Option String
  publicEcrToken : Except String (Option String)
  privateEcrToken : Except String (Option String)

/-- `Token::parse` (`models.rs`): identity token wins, else the `auth`
value is base64-decoded and split at the first `:` (both unwrapped —
the outer `none` is the panic), else no token. -/
def Token.parse (b64 : String → Option String) (v : DockerAuth) :
    Option (Option Token) :=
  match v.identitytoken with
  | some t => some (some (.bearer t))
  | Option.none =>
    match v.auth with
    | some a =>
      match b64 a with
      | Option.none => Option.none
      | some decoded =>
        match splitOnceStr decoded ':' with
        | Option.none => Option.none
        | some (u, p) => some (some (.basic u p))
    | Option.none => some Option.none

/-- The cloud-helper tail of `discover_auth`: public ECR for a base
starting with `public.ecr.aws`, private ECR for a base containing
`ecr`, else no token. An API failure is an `Authorization` error; the
private token is base64 `AWS:password` (both unwraps modelled). -/
def discoverEcr (env : AuthEnv) : AuthOutcome :=
  if strStartsWith env.base "public.ecr.aws" then
    match env.publicEcrToken with
    | .error e => .err (.authorization e)
    | .ok t => .ok (t.map .bearer)
  else if strContainsSub env.base "ecr" then
    match env.privateEcrToken with
    | .error e => .err (.authorization e)
    | .ok Option.none => .ok Option.none
    | .ok (some tok) =>
      match env.b64 tok with
      | Option.none => .crash
      | some decoded =>
        match stripPrefixStr decoded "AWS:" with
        | Option.none => .crash
        | some password => .ok (some (.basic "AWS" password))
  else .ok Option.none

/-- The config-file loop of `discover_auth`, one `FileProbe` per
candidate path. A missing file is skipped; a read failure is a `File`
error; a parse failure is a `ConfigDeserialize` error. When the file
has an entry for the registry base: if both `auth` and `identitytoken`
are absent the keychain is consulted (`get_password` failure returns
`Ok(None)` immediately; an `Entry::new` failure falls through to
`Token::parse`); in every found-entry case the function returns without
trying further sources. -/
def discoverFiles (env : AuthEnv) : List FileProbe → AuthOutcome
  | [] => discoverEcr env
  | probe :: rest =>
    match probe with
    | .absent => discoverFiles env rest
    | .readFailed => .err .file
    | .parseFailed => .err .configDeserialize
    | .config c =>
      match (c.auths.lookup env.base) with
      | Option.none => discoverFiles env rest
      | some entry =>
        if entry.auth = Option.none ∧ entry.identitytoken = Option.none then
          match env.keychain with
          | .ok (.ok password) =>
            match env.b64 password with
            | Option.none => .crash
            | some decoded =>
              match splitOnceStr decoded ':' with
              | some (u, p) => .ok (some (.basic u p))
              | Option.none => .ok (some (.bearer decoded))
          | .ok (.error _) => .ok Option.none
          | .error _ =>
            match Token.parse env.b64 entry with
            | Option.none => .crash
            | some t => .ok t
        else
          match Token.parse env.b64 entry with
          | Option.none => .crash
          | some t => .ok t

/-- `discover_auth` (`registry.rs`). -/
def discover_auth (env : AuthEnv) : AuthOutcome :=
  discoverFiles env env.files

/-! ## Claim-side definitions

Observables and specification-side builders used only to state the
claims; these follow the specification's words, to be compared with the
embeddings above. -/

/-- Total byte count of a sequence of write buffers. -/
def totalLen (bufs : List (List Nat)) : Nat :=
  (bufs.map List.length).sum

/-- The chunked-upload trace the specification describes, starting at
byte offset `idx` with `hashed` bytes already hashed: every buffer but
the last becomes a PATCH with `Content-Range: idx-(idx+len)`, the last
becomes the finishing PUT with the digest of all the bytes and
`Content-Range: idx-size`. -/
def chunkReqs (u : String) (size idx : Nat) (hashed : List Nat) :
    List (List Nat) → List Request
  | [] => []
  | [b] => [Request.put u b (digestStr (hashed ++ b)) idx size]
  | b :: b2 :: bs =>
    Request.patch u b idx (idx + b.length) ::
      chunkReqs u size (idx + b.length) (hashed ++ b) (b2 :: bs)

/-- The `Content-Range` pairs carried by the PATCH and PUT requests of
a trace, in order. -/
def reqRanges : List Request → List (Nat × Nat)
  | [] => []
  | .patch _ _ a b :: rest => (a, b) :: reqRanges rest
  | .put _ _ _ a b :: rest => (a, b) :: reqRanges rest
  | _ :: rest => reqRanges rest

/-- Contiguity and strict monotonicity of ranges: each range starts
where the previous one ended (the first at `i`) and is nonempty. -/
def rangesChained : Nat → List (Nat × Nat) → Bool
  | _, [] => true
  | i, (a, b) :: rest => a == i && decide (a < b) && rangesChained b rest

/-- All wire media-type strings for which the round-trip law holds:
the fixed strings plus the two parameterized families with
extension-style compression suffixes. -/
def coveredWireStrings : List String :=
  ["application/vnd.oci.image.index.v1+json",
   "application/vnd.oci.image.manifest.v1+json",
   "application/vnd.oci.image.config.v1+json",
   "application/vnd.docker.distribution.manifest.list.v2+json",
   "application/vnd.docker.distribution.manifest.v2+json",
   "application/vnd.docker.container.image.v1+json"]
  ++ (["", ".gz", ".bz2", ".lz4", ".xz", ".zst"].map
        fun ext => "application/vnd.oci.image.layer.v1.tar" ++ ext)
  ++ (["", ".gz", ".bz2", ".lz4", ".xz", ".zst"].map
        fun ext => "application/vnd.docker.image.rootfs.diff.tar" ++ ext)

/-- A concrete credential environment: the first config file is
malformed while the public-ECR token API (a later source in the chain)
would succeed. -/
def authEnvCex : AuthEnv :=
  { base := "public.ecr.aws",
    files := [FileProbe.parseFailed, FileProbe.absent],
    keychain := .error (),
    b64 := fun _ => Option.none,
    publicEcrToken := .ok (some "ecr-token"),
    privateEcrToken := .ok Option.none }

/-! ## Helper lemmas -/

theorem splitOnceList_eq_none_iff (c : Char) (xs : List Char) :
    splitOnceList c xs = Option.none ↔ c ∉ xs := by
  induction xs with
  | nil => simp [splitOnceList]
  | cons x xs ih =>
    by_cases hx : x = c
    · subst hx; simp [splitOnceList]
    · rw [splitOnceList, if_neg hx]
      constructor
      · intro h hmem
        rcases List.mem_cons.mp hmem with h1 | h2
        · exact hx h1.symm
        · cases hsp : splitOnceList c xs with
          | none => exact (ih.mp hsp) h2
          | some p => rw [hsp] at h; simp at h
      · intro h
        have hxs : c ∉ xs := fun hh => h (List.mem_cons_of_mem _ hh)
        rw [ih.mpr hxs]
        rfl

theorem splitOnceList_append_first (c : Char) (xs ys : List Char) (h : c ∉ xs) :
    splitOnceList c (xs ++ c :: ys) = some (xs, ys) := by
  induction xs with
  | nil => simp [splitOnceList]
  | cons x xs ih =>
    have hx : x ≠ c := fun hh => h (hh ▸ List.mem_cons_self x xs)
    have hxs : c ∉ xs := fun hh => h (List.mem_cons_of_mem x hh)
    simp [splitOnceList, hx, ih hxs]

/-! ## C10: `From<String> for Platform` panics without a slash -/

/-- C10: converting a `String` to a `Platform` unwraps the result of
splitting at `/`, so it panics (modelled as `none`) exactly on the
strings that contain no `/`; the conversion is total only on inputs
containing `/`. -/
theorem platform_fromString_partiality (s : String) :
    ('/' ∉ s.data → Platform.fromString s = Option.none) ∧
    ('/' ∈ s.data → ∃ p, Platform.fromString s = some p) := by
  constructor
  · intro h
    unfold Platform.fromString splitOnceStr
    rw [(splitOnceList_eq_none_iff _ _).mpr h]
    rfl
  · intro h
    unfold Platform.fromString splitOnceStr
    cases hsp : splitOnceList '/' s.data with
    | none => exact absurd h ((splitOnceList_eq_none_iff _ _).mp hsp)
    | some p => exact ⟨_, rfl⟩

/-- C10 witness: `"linux"` panics, `"linux/arm64"` converts. -/
theorem platform_fromString_partiality_witness :
    Platform.fromString "linux" = Option.none ∧
    ∃ p, Platform.fromString "linux/arm64" = some p :=
  ⟨(platform_fromString_partiality "linux").1 (by decide),
   (platform_fromString_partiality "linux/arm64").2 (by decide)⟩

/-! ## C9: `Reference` display/parse round trip -/

/-- C9 counterexample: the tag `"sha256:abc"` displays as
`sha256:abc`, which parses back as a digest, not the original tag. -/
theorem reference_roundtrip_cex :
    Reference.fromStr (Reference.toStr (Reference.tag "sha256:abc"))
      = .ok (Reference.digest .sha256 "abc") ∧
    Reference.fromStr (Reference.toStr (Reference.tag "sha256:abc"))
      ≠ .ok (Reference.tag "sha256:abc") := by
  decide

theorem algorithm_roundtrip (a : Algorithm) :
    Algorithm.fromStr (Algorithm.toStr a) = .ok a := by
  cases a <;> decide

theorem toStr_digest_data (a : Algorithm) (v : String) :
    (Reference.toStr (Reference.digest a v)).data
      = (Algorithm.toStr a).data ++ ':' :: v.data := by
  cases a <;> rfl

/-- A reference is round-trippable when it is a digest or a tag whose
string contains no `:`. -/
def refColonFree : Reference → Bool
  | .tag t => decide (':' ∉ t.data)
  | .digest _ _ => true

/-- C9 (amended): the round trip `from_str ∘ to_string = id` holds for
every digest reference and for every tag whose string contains no `:`;
a tag containing `:` re-parses as a digest or fails. -/
theorem reference_roundtrip_amended (r : Reference)
    (h : refColonFree r = true) :
    Reference.fromStr (Reference.toStr r) = .ok r := by
  cases r with
  | tag t =>
    have ht : ':' ∉ t.data := of_decide_eq_true h
    show Reference.fromStr (Reference.toStr (Reference.tag t)) = _
    unfold Reference.fromStr splitOnceStr
    rw [show Reference.toStr (Reference.tag t) = t from rfl,
      (splitOnceList_eq_none_iff _ _).mpr ht]
    rfl
  | digest a v =>
    have hna : ':' ∉ (Algorithm.toStr a).data := by cases a <;> decide
    unfold Reference.fromStr splitOnceStr
    rw [toStr_digest_data, splitOnceList_append_first _ _ _ hna]
    show ((Algorithm.fromStr (String.mk (Algorithm.toStr a).data)).map _) = _
    rw [show String.mk (Algorithm.toStr a).data = Algorithm.toStr a from rfl,
      algorithm_roundtrip]
    rfl

/-- C9 witness: the round trip at a plain tag and at a sha512 digest. -/
theorem reference_roundtrip_amended_witness :
    Reference.fromStr (Reference.toStr (Reference.tag "latest"))
      = .ok (Reference.tag "latest") ∧
    Reference.fromStr (Reference.toStr (Reference.digest .sha512 "00ff"))
      = .ok (Reference.digest .sha512 "00ff") :=
  ⟨reference_roundtrip_amended (Reference.tag "latest") (by decide),
   reference_roundtrip_amended (Reference.digest .sha512 "00ff") (by decide)⟩

/-! ## C7: `MediaType` wire round trip -/

/-- C7 counterexample: the OCI layer string with the `+gzip` suffix
(the suffix form the wire actually uses) deserializes to a layer with
compression `None` — `Compression::new` only recognizes the
extension-style suffixes `.gz`/`.xz`/… — and so re-serializes without
the suffix. -/
theorem mediaType_roundtrip_cex :
    MediaType.deserialize "application/vnd.oci.image.layer.v1.tar+gzip"
      = .ok (.layer .none) ∧
    (MediaType.deserialize "application/vnd.oci.image.layer.v1.tar+gzip").map
        MediaType.serialize
      ≠ .ok "application/vnd.oci.image.layer.v1.tar+gzip" := by
  constructor
  · decide
  · decide

/-- C7 (amended): deserialize-then-serialize is the identity on the
fixed wire strings and on the layer and Docker-rootfs families with
extension-style compression suffixes (`.gz`, `.bz2`, `.lz4`, `.xz`,
`.zst` or none); the `+gzip`/`+zstd` suffix forms do not round-trip. -/
theorem mediaType_roundtrip_amended (s : String) (h : s ∈ coveredWireStrings) :
    (MediaType.deserialize s).map MediaType.serialize = .ok s := by
  fin_cases h <;> decide

/-- C7 witness: the round trip at a compressed-layer wire string. -/
theorem mediaType_roundtrip_amended_witness :
    (MediaType.deserialize "application/vnd.oci.image.layer.v1.tar.gz").map
        MediaType.serialize
      = .ok "application/vnd.oci.image.layer.v1.tar.gz" :=
  mediaType_roundtrip_amended "application/vnd.oci.image.layer.v1.tar.gz" (by decide)

/-! ## C6: chunk-upload request URLs -/

/-- C6: the PATCH and PUT URLs built by
`SimpleRegistryClient::upload_part` and `finish_blob_upload` are never
the captured `Location` value itself: the location is spliced twice
into the fixed template `/v2/{location}/blobs/uploads/{location}`, as
the concrete evaluation shows. -/
theorem uploadUrl_not_location :
    uploadPartUrlPath "/v2/r/blobs/uploads/u1"
      = "/v2//v2/r/blobs/uploads/u1/blobs/uploads//v2/r/blobs/uploads/u1" ∧
    (∀ upload : String, uploadPartUrlPath upload ≠ upload) ∧
    (∀ upload digest : String, finishBlobUploadUrlPath upload digest ≠ upload) := by
  refine ⟨by decide, ?_, ?_⟩
  · intro upload h
    have hlen := congrArg (fun s => s.data.length) h
    simp [uploadPartUrlPath, String.data_append] at hlen
    omega
  · intro upload digest h
    have hlen := congrArg (fun s => s.data.length) h
    simp [finishBlobUploadUrlPath, uploadPartUrlPath, String.data_append] at hlen
    omega

/-! ## C3: `Layer::copy` reads and writes exactly `size` bytes -/

theorem copyLoop_short (chunk : Nat) (hc : 0 < chunk) :
    ∀ n size idx src written, size - idx = n → src.length < size - idx →
      copyLoop chunk hc src written idx size = .error .layerRead := by
  intro n
  induction n using Nat.strong_induction_on with
  | _ n ih =>
    intro size idx src written hn hlt
    have hidx : idx < size := by omega
    rw [copyLoop, dif_pos hidx]
    have hmin : min chunk (size - idx) = chunk ∨ min chunk (size - idx) = size - idx := by
      rw [Nat.min_def]
      split <;> simp
    by_cases hr : min chunk (size - idx) ≤ src.length
    · rw [if_pos hr]
      have hck : min chunk (size - idx) = chunk := by rcases hmin with h | h <;> omega
      apply ih (size - (idx + chunk)) (by omega) size (idx + chunk) _ _ rfl
      rw [List.length_drop]
      omega
    · rw [if_neg hr]

theorem copyLoop_ok (chunk : Nat) (hc : 0 < chunk) :
    ∀ n size idx src written, size - idx = n → size - idx ≤ src.length →
      ∃ rest, copyLoop chunk hc src written idx size = .ok (written ++ rest) ∧
        rest.flatten = src.take (size - idx) ∧
        (∀ c ∈ rest.dropLast, c.length = chunk) ∧
        (∀ c ∈ rest, c.length ≤ chunk) := by
  intro n
  induction n using Nat.strong_induction_on with
  | _ n ih =>
    intro size idx src written hn hle
    by_cases hidx : idx < size
    · rw [copyLoop, dif_pos hidx]
      have hr : min chunk (size - idx) ≤ src.length :=
        le_trans (Nat.min_le_right _ _) hle
      rw [if_pos hr]
      by_cases hck : chunk < size - idx
      · have hmin : min chunk (size - idx) = chunk := Nat.min_eq_left (le_of_lt hck)
        obtain ⟨rest, heq, hfl, hdl, hub⟩ :=
          ih (size - (idx + chunk)) (by omega) size (idx + chunk)
            (src.drop (min chunk (size - idx)))
            (written ++ [src.take (min chunk (size - idx))]) rfl
            (by rw [List.length_drop]; omega)
        have hrest_ne : rest ≠ [] := by
          intro hcontra
          rw [hcontra] at hfl
          have := congrArg List.length hfl.symm
          simp [List.length_take, List.length_drop] at this
          omega
        refine ⟨src.take (min chunk (size - idx)) :: rest, ?_, ?_, ?_, ?_⟩
        · rw [heq, List.append_assoc]
          rfl
        · rw [List.flatten_cons, hfl, hmin]
          have hsplit : size - idx = chunk + (size - (idx + chunk)) := by omega
          rw [hsplit, List.take_add]
        · intro c hc'
          cases rest with
          | nil => exact absurd rfl hrest_ne
          | cons r rs =>
            rw [List.dropLast_cons₂] at hc'
            rcases List.mem_cons.mp hc' with h | h
            · rw [h, List.length_take, hmin]
              omega
            · exact hdl c h
        · intro c hc'
          rcases List.mem_cons.mp hc' with h | h
          · rw [h, List.length_take, hmin]
            omega
          · exact hub c h
      · have hmin : min chunk (size - idx) = size - idx := Nat.min_eq_right (by omega)
        rw [copyLoop, dif_neg (by omega : ¬ idx + chunk < size)]
        refine ⟨[src.take (min chunk (size - idx))], rfl, ?_, ?_, ?_⟩
        · rw [hmin]
          simp
        · intro c hc'
          simp at hc'
        · intro c hc'
          rcases List.mem_singleton.mp hc' with h
          rw [h, List.length_take, hmin]
          omega
    · rw [copyLoop, dif_neg hidx]
      refine ⟨[], by simp, ?_, by simp, by simp⟩
      have h0 : size - idx = 0 := by omega
      rw [h0]
      simp

/-- C3: `Layer.copy(reader, writer, n)`: when the reader holds at
least `n` bytes the copy succeeds, the concatenation of the buffers
written is exactly the first `n` bytes read (so exactly `n` bytes are
read and written), every chunk except the last has exactly the clamped
chunk size `clamp(n/40, 5 MiB, 128 MiB)` and no chunk exceeds it; when
the reader holds fewer than `n` bytes the copy fails with the read
error. -/
theorem layer_copy_exact (src : List Nat) (size : Nat) :
    (size ≤ src.length →
      ∃ chunks, Layer.copy src size = .ok chunks ∧
        chunks.flatten = src.take size ∧
        chunks.flatten.length = size ∧
        (∀ c ∈ chunks.dropLast, c.length = copyChunkSize size) ∧
        (∀ c ∈ chunks, c.length ≤ copyChunkSize size)) ∧
    (src.length < size → Layer.copy src size = .error .layerRead) := by
  constructor
  · intro hle
    obtain ⟨rest, heq, hfl, hdl, hub⟩ :=
      copyLoop_ok (copyChunkSize size) (copyChunkSize_pos size) size size 0 src []
        rfl (by simpa using hle)
    refine ⟨rest, by simpa [Layer.copy] using heq, by simpa using hfl, ?_, hdl, hub⟩
    have hfl' : rest.flatten = src.take size := by simpa using hfl
    rw [hfl', List.length_take]
    omega
  · intro hlt
    exact copyLoop_short (copyChunkSize size) (copyChunkSize_pos size) size size 0 src []
      rfl (by simpa using hlt)

/-- C3 witness: a 3-byte copy from a 4-byte reader succeeds; a 2-byte
copy from a 1-byte reader is a read error. -/
theorem layer_copy_exact_witness :
    (∃ chunks, Layer.copy [1, 2, 3, 4] 3 = .ok chunks ∧
      chunks.flatten = [1, 2, 3] ∧
      chunks.flatten.length = 3 ∧
      (∀ c ∈ chunks.dropLast, c.length = copyChunkSize 3) ∧
      (∀ c ∈ chunks, c.length ≤ copyChunkSize 3)) ∧
    Layer.copy [1] 2 = .error .layerRead := by
  constructor
  · have h := (layer_copy_exact [1, 2, 3, 4] 3).1 (by decide)
    simpa using h
  · exact (layer_copy_exact [1] 2).2 (by decide)

/-! ## C4: the filesystem flattener -/

/-- The invariant the flattener maintains: every emitted path is in the
seen set, no emitted path contains the whiteout marker, and each path
has at most one regular-file entry in the output. -/
def FsInv (seen : List String) (out : List TarEntry) : Prop :=
  (∀ e ∈ out, e.path ∈ seen) ∧
  (∀ e ∈ out, strContainsSub e.path WHITEOUT = false) ∧
  (∀ p, (out.filter fun e => e.isFile && e.path == p).length ≤ 1)

theorem fsLayer_inv : ∀ (entries : List TarEntry) (seen : List String)
    (out : List TarEntry), FsInv seen out →
    FsInv (fsLayer seen out entries).1 (fsLayer seen out entries).2 := by
  intro entries
  induction entries with
  | nil => intro seen out h; exact h
  | cons e rest ih =>
    intro seen out h
    obtain ⟨h1, h2, h3⟩ := h
    rw [fsLayer]
    by_cases hskip : (strContainsSub e.path WHITEOUT
        || (e.isFile && seen.contains e.path)) = true
    · rw [if_pos hskip]
      exact ih seen out ⟨h1, h2, h3⟩
    · rw [if_neg hskip]
      have hor := Bool.or_eq_false_iff.mp (Bool.eq_false_iff.mpr hskip)
      have hwh : strContainsSub e.path WHITEOUT = false := hor.1
      have hnf : (e.isFile && seen.contains e.path) = false := hor.2
      apply ih (e.path :: seen) (out ++ [e])
      refine ⟨?_, ?_, ?_⟩
      · intro x hx
        rcases List.mem_append.mp hx with hmem | hmem
        · exact List.mem_cons_of_mem _ (h1 x hmem)
        · rw [List.mem_singleton.mp hmem]
          exact List.mem_cons_self _ _
      · intro x hx
        rcases List.mem_append.mp hx with hmem | hmem
        · exact h2 x hmem
        · rw [List.mem_singleton.mp hmem]
          exact hwh
      · intro p
        rw [List.filter_append]
        cases hef : (e.isFile && e.path == p) with
        | false => simp only [List.filter_cons, hef, List.filter_nil, List.length_append]
                   simpa using h3 p
        | true =>
          have hef' := hef
          simp only [Bool.and_eq_true] at hef'
          have hfile : e.isFile = true := hef'.1
          have hpath : e.path = p := eq_of_beq hef'.2
          have hnotseen : e.path ∉ seen := by
            intro hmem
            rw [hfile, Bool.true_and] at hnf
            have hc : seen.contains e.path = true := by
              simpa [List.contains] using List.elem_eq_true_of_mem hmem
            rw [hc] at hnf
            exact absurd hnf (by simp)
          have hout0 : (out.filter fun x => x.isFile && x.path == p) = [] := by
            rw [List.filter_eq_nil_iff]
            intro x hx hcond
            simp only [Bool.and_eq_true] at hcond
            have hxp : x.path = p := eq_of_beq hcond.2
            exact hnotseen (hpath ▸ hxp ▸ h1 x hx)
          simp [hout0, hef]

/-- C4 counterexample: a non-file entry (here a directory `d/`) that
appears in two layers is emitted twice — the seen-set dedup is applied
only to regular files — refuting "each distinct non-whiteout path is
emitted at most once". -/
theorem filesystem_duplicate_path_cex :
    Image.filesystem [[⟨"d/", false⟩], [⟨"d/", false⟩]]
      = [⟨"d/", false⟩, ⟨"d/", false⟩] ∧
    ((Image.filesystem [[⟨"d/", false⟩], [⟨"d/", false⟩]]).filter
        fun e => e.path == "d/").length = 2 := by
  decide

/-- C4 (amended): the flattener emits no path containing `.wh.`, and
each distinct path is emitted at most once *as a regular file*;
non-file entries (directories, links) sharing a path across layers may
be emitted more than once. -/
theorem filesystem_no_whiteout_file_once (layers : List (List TarEntry)) :
    (∀ e ∈ Image.filesystem layers, strContainsSub e.path WHITEOUT = false) ∧
    (∀ p, ((Image.filesystem layers).filter
        fun e => e.isFile && e.path == p).length ≤ 1) := by
  have main : ∀ (ls : List (List TarEntry)) (st : List String × List TarEntry),
      FsInv st.1 st.2 →
      FsInv (ls.foldl (fun st layer => fsLayer st.1 st.2 layer) st).1
        (ls.foldl (fun st layer => fsLayer st.1 st.2 layer) st).2 := by
    intro ls
    induction ls with
    | nil => intro st h; exact h
    | cons l ls ih =>
      intro st h
      exact ih _ (fsLayer_inv l st.1 st.2 h)
  have h := main layers.reverse ([], []) ⟨by simp, by simp, by simp⟩
  exact ⟨h.2.1, h.2.2⟩

/-- C4 witness: a singleton layer's file entry is whiteout-free and
its path occurs once as a file in the output. -/
theorem filesystem_no_whiteout_file_once_witness :
    strContainsSub (TarEntry.mk "a" true).path WHITEOUT = false ∧
    ((Image.filesystem [[⟨"a", true⟩]]).filter
        fun e => e.isFile && e.path == "a").length ≤ 1 :=
  ⟨(filesystem_no_whiteout_file_once [[⟨"a", true⟩]]).1 ⟨"a", true⟩ (by decide),
   (filesystem_no_whiteout_file_once [[⟨"a", true⟩]]).2 "a"⟩

/-! ## C8: the credential chain -/

theorem discoverFiles_skip_absent (env : AuthEnv) :
    ∀ (pre rest : List FileProbe), (∀ f ∈ pre, f = FileProbe.absent) →
      discoverFiles env (pre ++ rest) = discoverFiles env rest := by
  intro pre
  induction pre with
  | nil => intro rest _; rfl
  | cons f fs ih =>
    intro rest h
    have hf : f = .absent := h f (List.mem_cons_self _ _)
    rw [List.cons_append, hf]
    show discoverFiles env (fs ++ rest) = _
    exact ih rest fun x hx => h x (List.mem_cons_of_mem _ hx)

/-- C8 counterexample: in an environment whose first config file is
malformed while the public-ECR token API (a later source) would grant a
bearer token, discovery aborts with a `ConfigDeserialize` error —
the later source is not consulted; with that file merely missing, the
same environment yields the ECR bearer token. -/
theorem discover_auth_cex :
    discover_auth authEnvCex = .err .configDeserialize ∧
    discover_auth { authEnvCex with
        files := [FileProbe.absent, FileProbe.absent] }
      = .ok (some (.bearer "ecr-token")) :=
  ⟨rfl, rfl⟩

/-- C8 (amended): the credential chain is only partially best-effort.
Missing config files fall through (to the remaining file and the
cloud-API sources), but a malformed config file aborts the chain with a
`ConfigDeserialize` error and an unreadable one with a `File` error;
a config entry found for the registry always ends the chain — in
particular a keychain miss (`get_password` failure) returns no token
without consulting any later source; an actually attempted cloud-API
call surfaces its failure as an `Authorization` error. -/
theorem discover_auth_partial_best_effort (env : AuthEnv) :
    ((∀ f ∈ env.files, f = FileProbe.absent) →
      discover_auth env = discoverEcr env) ∧
    (∀ pre rest, (∀ f ∈ pre, f = FileProbe.absent) →
      env.files = pre ++ FileProbe.parseFailed :: rest →
      discover_auth env = .err .configDeserialize) ∧
    (∀ pre rest, (∀ f ∈ pre, f = FileProbe.absent) →
      env.files = pre ++ FileProbe.readFailed :: rest →
      discover_auth env = .err .file) ∧
    (∀ pre rest c entry, (∀ f ∈ pre, f = FileProbe.absent) →
      env.files = pre ++ FileProbe.config c :: rest →
      c.auths.lookup env.base = some entry →
      entry.auth = Option.none → entry.identitytoken = Option.none →
      env.keychain = .ok (.error ()) →
      discover_auth env = .ok Option.none) ∧
    ((∀ f ∈ env.files, f = FileProbe.absent) →
      strStartsWith env.base "public.ecr.aws" = true →
      ∀ r, env.publicEcrToken = .error r →
      discover_auth env = .err (.authorization r)) := by
  refine ⟨?_, ?_, ?_, ?_, ?_⟩
  · intro h
    unfold discover_auth
    rw [show env.files = env.files ++ [] by simp, discoverFiles_skip_absent env _ _ h]
    rfl
  · intro pre rest hpre hfiles
    unfold discover_auth
    rw [hfiles, discoverFiles_skip_absent env _ _ hpre]
    rfl
  · intro pre rest hpre hfiles
    unfold discover_auth
    rw [hfiles, discoverFiles_skip_absent env _ _ hpre]
    rfl
  · intro pre rest c entry hpre hfiles hlook hauth hid hkc
    unfold discover_auth
    rw [hfiles, discoverFiles_skip_absent env _ _ hpre]
    simp [discoverFiles, hlook, hauth, hid, hkc]
  · intro habsent hstart r hpub
    unfold discover_auth
    rw [show env.files = env.files ++ [] by simp,
      discoverFiles_skip_absent env _ _ habsent]
    show discoverEcr env = _
    simp [discoverEcr, hstart, hpub]

/-- C8 witness: the amended behaviour at a concrete environment — the
malformed-file abort, the keychain-miss abort, and the fall-through of
missing files into a public-ECR authorization failure. -/
theorem discover_auth_partial_best_effort_witness :
    discover_auth { authEnvCex with
        files := [FileProbe.absent, FileProbe.parseFailed] }
      = .err .configDeserialize ∧
    discover_auth { authEnvCex with
        files := [FileProbe.config ⟨[("public.ecr.aws", ⟨Option.none, Option.none⟩)]⟩],
        keychain := .ok (.error ()) }
      = .ok Option.none ∧
    discover_auth { authEnvCex with
        files := [FileProbe.absent],
        publicEcrToken := .error "expired" }
      = .err (.authorization "expired") :=
  ⟨(discover_auth_partial_best_effort _).2.1 [FileProbe.absent] [] (by decide) rfl,
   (discover_auth_partial_best_effort _).2.2.2.1 [] []
     ⟨[("public.ecr.aws", ⟨Option.none, Option.none⟩)]⟩ ⟨Option.none, Option.none⟩
     (by decide) rfl rfl rfl rfl rfl,
   (discover_auth_partial_best_effort _).2.2.2.2 (by decide) (by decide) "expired" rfl⟩

/-! ## C5: `Index::fetch_image` platform selection -/

theorem excBind_err {ε α β} (e : ε) (f : α → Except ε β) :
    ((Except.error e : Except ε α) >>= f) = Except.error e := rfl

theorem excBind_ok {ε α β} (a : α) (f : α → Except ε β) :
    ((Except.ok a : Except ε α) >>= f) = f a := rfl

theorem excMap_err {ε α β} (f : α → β) (e : ε) :
    (f <$> (Except.error e : Except ε α)) = Except.error e := rfl

theorem excMap_ok {ε α β} (f : α → β) (a : α) :
    (f <$> (Except.ok a : Except ε α)) = Except.ok (f a) := rfl

theorem excMapFn_err {ε α β} (f : α → β) (e : ε) :
    Except.map f (Except.error e : Except ε α) = Except.error e := rfl

theorem excMapFn_ok {ε α β} (f : α → β) (a : α) :
    Except.map f (Except.ok a : Except ε α) = Except.ok (f a) := rfl

theorem excPure {ε α} (a : α) : (pure a : Except ε α) = Except.ok a := rfl

theorem find?_first_of_split {α} (p : α → Bool) (pre : List α) (x : α) (rest : List α)
    (hpre : ∀ a ∈ pre, p a = false) (hx : p x = true) :
    (pre ++ x :: rest).find? p = some x := by
  induction pre with
  | nil => simp [List.find?_cons, hx]
  | cons a as ih =>
    have ha : p a = false := hpre a (List.mem_cons_self _ _)
    rw [List.cons_append, List.find?_cons, ha]
    exact ih fun b hb => hpre b (List.mem_cons_of_mem _ hb)

/-- C5: the platform-selection behaviour of `Index::fetch_image`. With
a requested platform `x`: if no manifest entry's platform equals `x`
the call fails with `IndexNoPlatform`; if the first entry with
platform `x` is `e`, the image is fetched through a reference parsed
from `e`'s digest with platform hint `x`, and any image returned
carries platform `x`. With no requested platform: the result is
`Ok(None)` exactly when the index has no manifest entries; the first
entry matching the host platform is used when one exists, else the
first entry of the index (with its own platform hint). -/
theorem index_fetch_image_selection (env : String → Except OciError Image)
    (current : Platform) (ms : List Layer) (x : Platform) :
    ((∀ e ∈ ms, e.platform ≠ some x) →
      Index.fetch_image env current ms (some x) = .error (.indexNoPlatform x)) ∧
    (∀ pre e rest, ms = pre ++ e :: rest → (∀ a ∈ pre, a.platform ≠ some x) →
      e.platform = some x →
      Index.fetch_image env current ms (some x)
        = (Reference.fromStr e.digest).bind fun r =>
            (Image.fetch env r (some x)).map some) ∧
    (∀ img, Index.fetch_image env current ms (some x) = .ok (some img) →
      img.platform = some x) ∧
    (Index.fetch_image env current ms Option.none = .ok Option.none ↔ ms = []) ∧
    (∀ pre e rest, ms = pre ++ e :: rest →
      (∀ a ∈ pre, a.platform ≠ some current) → e.platform = some current →
      Index.fetch_image env current ms Option.none
        = (Reference.fromStr e.digest).bind fun r =>
            (Image.fetch env r (some current)).map some) ∧
    ((∀ e ∈ ms, e.platform ≠ some current) → ∀ e rest, ms = e :: rest →
      Index.fetch_image env current ms Option.none
        = (Reference.fromStr e.digest).bind fun r =>
            (Image.fetch env r e.platform).map some) := by
  refine ⟨?_, ?_, ?_, ?_, ?_, ?_⟩
  · intro h
    have hfind : ms.find? (fun e => e.platform = some x) = Option.none := by
      rw [List.find?_eq_none]
      intro a ha
      simpa using h a ha
    simp [Index.fetch_image, hfind]
  · intro pre e rest hms hpre he
    have hfind : ms.find? (fun a => a.platform = some x) = some e := by
      rw [hms]
      exact find?_first_of_split _ pre e rest
        (fun a ha => by simpa using hpre a ha) (by simpa using he)
    simp only [Index.fetch_image, hfind]
    cases hr : Reference.fromStr e.digest with
    | error err => rfl
    | ok r =>
      show (Image.fetch env r (some x)).bind (fun img => pure (some img))
          = (Image.fetch env r (some x)).map some
      cases Image.fetch env r (some x) <;> rfl
  · intro img heq
    cases hfind : ms.find? (fun a => a.platform = some x) with
    | none => simp [Index.fetch_image, hfind] at heq
    | some oci =>
      simp only [Index.fetch_image, hfind] at heq
      cases hr : Reference.fromStr oci.digest with
      | error err =>
        rw [hr, excBind_err] at heq
        exact absurd heq (by simp)
      | ok r =>
        rw [hr, excBind_ok] at heq
        cases r with
        | tag t =>
          rw [show Image.fetch env (Reference.tag t) (some x)
              = Except.error .directLoadImage from rfl, excBind_err] at heq
          exact absurd heq (by simp)
        | digest a v =>
          cases henv : env (Reference.toStr (Reference.digest a v)) with
          | error err =>
            rw [show Image.fetch env (Reference.digest a v) (some x)
                = (env (Reference.toStr (Reference.digest a v))).map
                    (fun img => { img with platform := some x }) from rfl,
              henv, excMapFn_err, excBind_err] at heq
            exact absurd heq (by simp)
          | ok im =>
            rw [show Image.fetch env (Reference.digest a v) (some x)
                = (env (Reference.toStr (Reference.digest a v))).map
                    (fun img => { img with platform := some x }) from rfl,
              henv, excMapFn_ok, excBind_ok, excPure] at heq
            injection heq with h1
            injection h1 with h2
            rw [← h2]
  · constructor
    · intro heq
      cases hfind : ms.find? (fun a => a.platform = some current) with
      | some oci =>
        simp only [Index.fetch_image, hfind] at heq
        cases hr : Reference.fromStr oci.digest with
        | error err =>
          rw [hr, excBind_err] at heq
          exact absurd heq (by simp)
        | ok r =>
          rw [hr, excBind_ok] at heq
          cases r with
          | tag t =>
            rw [show Image.fetch env (Reference.tag t) (some current)
                = Except.error .directLoadImage from rfl, excBind_err] at heq
            exact absurd heq (by simp)
          | digest a v =>
            cases henv : env (Reference.toStr (Reference.digest a v)) with
            | error err =>
              rw [show Image.fetch env (Reference.digest a v) (some current)
                  = (env (Reference.toStr (Reference.digest a v))).map
                      (fun img => { img with platform := some current }) from rfl,
                henv, excMapFn_err, excBind_err] at heq
              exact absurd heq (by simp)
            | ok im =>
              rw [show Image.fetch env (Reference.digest a v) (some current)
                  = (env (Reference.toStr (Reference.digest a v))).map
                      (fun img => { img with platform := some current }) from rfl,
                henv, excMapFn_ok, excBind_ok, excPure] at heq
              exact absurd heq (by simp)
      | none =>
        cases ms with
        | nil => rfl
        | cons e rest =>
          simp only [Index.fetch_image, hfind] at heq
          cases hr : Reference.fromStr e.digest with
          | error err =>
            rw [hr, excBind_err] at heq
            exact absurd heq (by simp)
          | ok r =>
            rw [hr, excBind_ok] at heq
            cases r with
            | tag t =>
              rw [show Image.fetch env (Reference.tag t) e.platform
                  = Except.error .directLoadImage from rfl, excBind_err] at heq
              exact absurd heq (by simp)
            | digest a v =>
              cases henv : env (Reference.toStr (Reference.digest a v)) with
              | error err =>
                rw [show Image.fetch env (Reference.digest a v) e.platform
                    = (env (Reference.toStr (Reference.digest a v))).map
                        (fun img => { img with platform := e.platform }) from rfl,
                  henv, excMapFn_err, excBind_err] at heq
                exact absurd heq (by simp)
              | ok im =>
                rw [show Image.fetch env (Reference.digest a v) e.platform
                    = (env (Reference.toStr (Reference.digest a v))).map
                        (fun img => { img with platform := e.platform }) from rfl,
                  henv, excMapFn_ok, excBind_ok, excPure] at heq
                exact absurd heq (by simp)
    · intro h
      rw [h]
      rfl
  · intro pre e rest hms hpre he
    have hfind : ms.find? (fun a => a.platform = some current) = some e := by
      rw [hms]
      exact find?_first_of_split _ pre e rest
        (fun a ha => by simpa using hpre a ha) (by simpa using he)
    simp only [Index.fetch_image, hfind]
    cases hr : Reference.fromStr e.digest with
    | error err => rfl
    | ok r =>
      show (Image.fetch env r (some current)).bind (fun img => pure (some img))
          = (Image.fetch env r (some current)).map some
      cases Image.fetch env r (some current) <;> rfl
  · intro h e rest hms
    have hfind : ms.find? (fun a => a.platform = some current) = Option.none := by
      rw [List.find?_eq_none]
      intro a ha
      simpa using h a ha
    rw [hms] at hfind ⊢
    simp only [Index.fetch_image, hfind]
    cases hr : Reference.fromStr e.digest with
    | error err => rfl
    | ok r =>
      show (Image.fetch env r e.platform).bind (fun img => pure (some img))
          = (Image.fetch env r e.platform).map some
      cases Image.fetch env r e.platform <;> rfl

/-- C5 witness: a request for a platform absent from the index fails
with `IndexNoPlatform`; an empty index with no requested platform
yields `None`. -/
theorem index_fetch_image_selection_witness :
    Index.fetch_image (fun _ => .error .directLoadImage) ⟨"amd64", "linux"⟩
      [⟨MediaType.manifest, 0, "sha256:aa", some ⟨"arm64", "linux"⟩⟩]
      (some ⟨"s390x", "linux"⟩)
      = .error (.indexNoPlatform ⟨"s390x", "linux"⟩) ∧
    Index.fetch_image (fun _ => .error .directLoadImage) ⟨"amd64", "linux"⟩
      [] Option.none
      = .ok Option.none :=
  ⟨(index_fetch_image_selection _ _ _ _).1 (by decide),
   (index_fetch_image_selection (fun _ => .error .directLoadImage)
     ⟨"amd64", "linux"⟩ [] ⟨"s390x", "linux"⟩).2.2.2.1.mpr rfl⟩

/-! ## C1 and C2: the blob `Writer` state machine -/

theorem writeOnce_some (repo loc u : String) (st : WriterState) (buf : List Nat)
    (h : st.upload_url = some u) :
    writeOnce repo loc st buf = writeChunked u st buf := by
  unfold writeOnce
  rw [h]

theorem writeChunked_put (u : String) (st : WriterState) (buf : List Nat)
    (h : st.size ≤ st.index + buf.length) :
    writeChunked u st buf
      = ([Request.put u buf (digestStr (st.hashed ++ buf)) st.index st.size],
         { st with hashed := st.hashed ++ buf, index := st.index + buf.length }) := by
  unfold writeChunked
  rw [if_pos h]

theorem writeChunked_patch (u : String) (st : WriterState) (buf : List Nat)
    (h : ¬ st.size ≤ st.index + buf.length) :
    writeChunked u st buf
      = ([Request.patch u buf st.index (st.index + buf.length)],
         { st with hashed := st.hashed ++ buf, index := st.index + buf.length }) := by
  unfold writeChunked
  rw [if_neg h]

theorem writeOnce_none_start (repo loc : String) (st : WriterState) (buf : List Nat)
    (h : st.upload_url = Option.none) (hlen : buf.length ≠ st.size) :
    writeOnce repo loc st buf
      = (Request.start repo ::
          (writeChunked loc { st with upload_url := some loc, index := 0 } buf).1,
         (writeChunked loc { st with upload_url := some loc, index := 0 } buf).2) := by
  simp only [writeOnce, h]
  rw [if_neg hlen]

theorem runWrites_cons (repo loc : String) (st : WriterState) (b : List Nat)
    (bs : List (List Nat)) :
    runWrites repo loc st (b :: bs)
      = ((writeOnce repo loc st b).1
           ++ (runWrites repo loc (writeOnce repo loc st b).2 bs).1,
         (runWrites repo loc (writeOnce repo loc st b).2 bs).2) := rfl

theorem totalLen_cons (b : List Nat) (bs : List (List Nat)) :
    totalLen (b :: bs) = b.length + totalLen bs := by
  simp [totalLen]

/-- Chunked runs of the writer: with an upload location already
captured, nonempty buffers that exactly exhaust the remaining bytes
produce precisely the PATCH…PUT trace of `chunkReqs`, ending with
`index = size` and the hasher fed all bytes. -/
theorem runWrites_chunked (repo loc u : String) :
    ∀ (bufs : List (List Nat)) (st : WriterState), st.upload_url = some u →
      bufs ≠ [] → (∀ b ∈ bufs, b ≠ []) → st.index + totalLen bufs = st.size →
      runWrites repo loc st bufs
        = (chunkReqs u st.size st.index st.hashed bufs,
           { st with index := st.size, hashed := st.hashed ++ bufs.flatten }) := by
  intro bufs
  induction bufs with
  | nil => intro st _ hne; exact absurd rfl hne
  | cons b bs ih =>
    intro st hurl hne hnz hsum
    cases bs with
    | nil =>
      have hidx : st.index + b.length = st.size := by
        rw [totalLen_cons] at hsum
        simp [totalLen] at hsum
        omega
      rw [runWrites_cons, writeOnce_some repo loc u st b hurl,
        writeChunked_put u st b (le_of_eq hidx.symm)]
      dsimp only
      rw [chunkReqs, hidx]
      simp [runWrites]
    | cons b2 bs2 =>
      have hb2 : 0 < b2.length :=
        List.length_pos.mpr (hnz b2 (List.mem_cons_of_mem _ (List.mem_cons_self _ _)))
      have hlt : st.index + b.length < st.size := by
        rw [totalLen_cons, totalLen_cons] at hsum
        omega
      rw [runWrites_cons, writeOnce_some repo loc u st b hurl,
        writeChunked_patch u st b (by omega)]
      dsimp only
      rw [ih { st with hashed := st.hashed ++ b, index := st.index + b.length }
        (by simp [hurl]) (by simp)
        (fun x hx => hnz x (List.mem_cons_of_mem _ hx))
        (by rw [totalLen_cons] at hsum; simp; omega)]
      rw [chunkReqs]
      simp [List.append_assoc]

/-- A single write of exactly `size` bytes: the monolithic POST. -/
theorem runWrites_single (repo loc : String) (size : Nat) (b : List Nat)
    (h : b.length = size) :
    runWrites repo loc (WriterState.init size) [b]
      = ([Request.post repo b (digestStr b)],
         { upload_url := Option.none, index := size, hashed := b, size := size }) := by
  simp only [runWrites, writeOnce, WriterState.init]
  rw [if_pos h]
  simp [h]

/-- Two or more writes: the start POST, then `chunkReqs`. -/
theorem runWrites_multi (repo loc : String) (size : Nat) (b1 b2 : List Nat)
    (bs : List (List Nat)) (hnz : ∀ b ∈ b1 :: b2 :: bs, b ≠ [])
    (hsum : totalLen (b1 :: b2 :: bs) = size) :
    runWrites repo loc (WriterState.init size) (b1 :: b2 :: bs)
      = (Request.start repo :: chunkReqs loc size 0 [] (b1 :: b2 :: bs),
         { upload_url := some loc, index := size,
           hashed := (b1 :: b2 :: bs).flatten, size := size }) := by
  have hb2 : 0 < b2.length :=
    List.length_pos.mpr (hnz b2 (List.mem_cons_of_mem _ (List.mem_cons_self _ _)))
  have hb1 : b1.length < size := by
    rw [totalLen_cons, totalLen_cons] at hsum
    omega
  rw [runWrites_cons,
    writeOnce_none_start repo loc (WriterState.init size) b1 rfl
      (by simpa [WriterState.init] using Nat.ne_of_lt hb1),
    writeChunked_patch loc _ b1
      (by simpa [WriterState.init] using Nat.not_le_of_lt hb1)]
  dsimp only
  rw [runWrites_chunked repo loc loc (b2 :: bs) _ rfl (by simp)
    (fun x hx => hnz x (List.mem_cons_of_mem _ hx))
    (by rw [totalLen_cons] at hsum; simp [WriterState.init]; omega)]
  rw [chunkReqs]
  simp [WriterState.init]

theorem chunkReqs_kinds :
    ∀ (bufs : List (List Nat)) (u : String) (size idx : Nat) (hashed : List Nat),
      bufs ≠ [] →
      (chunkReqs u size idx hashed bufs).map Request.kind
        = List.replicate (bufs.length - 1) RequestKind.patch ++ [RequestKind.put] := by
  intro bufs
  induction bufs with
  | nil => intro _ _ _ _ hne; exact absurd rfl hne
  | cons b bs ih =>
    intro u size idx hashed _
    cases bs with
    | nil => simp [chunkReqs, Request.kind]
    | cons b2 bs2 =>
      rw [chunkReqs]
      simp only [List.map_cons, Request.kind]
      rw [ih u size (idx + b.length) (hashed ++ b) (by simp)]
      simp [List.replicate_succ]

theorem chunkReqs_no_post :
    ∀ (bufs : List (List Nat)) (u : String) (size idx : Nat) (hashed : List Nat)
      (r : Request), r ∈ chunkReqs u size idx hashed bufs →
      r.kind ≠ RequestKind.post := by
  intro bufs
  induction bufs with
  | nil => intro u size idx hashed r hr; simp [chunkReqs] at hr
  | cons b bs ih =>
    intro u size idx hashed r hr
    cases bs with
    | nil =>
      rw [chunkReqs, List.mem_singleton] at hr
      rw [hr]
      simp [Request.kind]
    | cons b2 bs2 =>
      rw [chunkReqs] at hr
      rcases List.mem_cons.mp hr with h | h
      · rw [h]; simp [Request.kind]
      · exact ih u size (idx + b.length) (hashed ++ b) r h

theorem chunkReqs_ranges :
    ∀ (bufs : List (List Nat)) (u : String) (size idx : Nat) (hashed : List Nat),
      (∀ b ∈ bufs, b ≠ []) → idx + totalLen bufs = size →
      rangesChained idx (reqRanges (chunkReqs u size idx hashed bufs)) = true := by
  intro bufs
  induction bufs with
  | nil => intro u size idx hashed _ _; rfl
  | cons b bs ih =>
    intro u size idx hashed hnz hsum
    have hb : 0 < b.length := List.length_pos.mpr (hnz b (List.mem_cons_self _ _))
    cases bs with
    | nil =>
      have hidx : idx < size := by rw [totalLen_cons] at hsum; simp [totalLen] at hsum; omega
      simp [chunkReqs, reqRanges, rangesChained, hidx]
    | cons b2 bs2 =>
      rw [chunkReqs]
      simp only [reqRanges, rangesChained]
      rw [ih u size (idx + b.length) (hashed ++ b)
        (fun x hx => hnz x (List.mem_cons_of_mem _ hx))
        (by rw [totalLen_cons] at hsum; omega)]
      simp [hb]

theorem chunkReqs_split :
    ∀ (bufs : List (List Nat)) (u : String) (size idx : Nat) (hashed : List Nat),
      bufs ≠ [] → idx + totalLen bufs = size →
      ∃ mids lastBuf,
        chunkReqs u size idx hashed bufs
          = mids ++ [Request.put u lastBuf (digestStr (hashed ++ bufs.flatten))
              (size - lastBuf.length) size] ∧
        (∀ r ∈ mids, r.kind = RequestKind.patch) := by
  intro bufs
  induction bufs with
  | nil => intro _ _ _ _ hne; exact absurd rfl hne
  | cons b bs ih =>
    intro u size idx hashed _ hsum
    cases bs with
    | nil =>
      refine ⟨[], b, ?_, by simp⟩
      rw [chunkReqs]
      have hidx : idx = size - b.length := by
        rw [totalLen_cons] at hsum
        simp [totalLen] at hsum
        omega
      simp [hidx]
    | cons b2 bs2 =>
      obtain ⟨mids, lastBuf, heq, hpatch⟩ :=
        ih u size (idx + b.length) (hashed ++ b) (by simp)
          (by rw [totalLen_cons] at hsum; omega)
      refine ⟨Request.patch u b idx (idx + b.length) :: mids, lastBuf, ?_, ?_⟩
      · rw [chunkReqs, heq]
        simp [List.append_assoc]
      · intro r hr
        rcases List.mem_cons.mp hr with h | h
        · rw [h]; rfl
        · exact hpatch r h

/-- C1 counterexample: the writer has no `Done` state after a
successful monolithic POST. With advertised size 1, writing 1 byte and
then 1 more byte produces two monolithic POSTs; with advertised size
2, a 2-byte write followed by a 1-byte write produces a POST, then an
upload-start POST and a PATCH. In neither case is the subsequent write
an error. -/
theorem writer_not_done_after_monolithic_cex :
    (runWrites "r" "loc" (WriterState.init 1) [[7], [7]]).1.map Request.kind
      = [RequestKind.post, RequestKind.post] ∧
    (runWrites "r" "loc" (WriterState.init 2) [[7, 8], [9]]).1.map Request.kind
      = [RequestKind.post, RequestKind.start, RequestKind.patch] := by
  constructor <;> rfl

/-- C1 (amended): for a writer created with advertised size and a
sequence of nonempty writes totalling exactly `size` bytes, the
monolithic single-POST path is used iff the sequence is one write (then
necessarily of exactly `size` bytes); otherwise the trace is exactly
one upload-start POST, PATCHes, and a finishing PUT carrying the
digest, with `Content-Range` offsets contiguous and strictly
increasing from 0 to `size`. (The writer is not `Done` after a
monolithic POST: a further write starts a fresh upload rather than
erroring — see the counterexample.) -/
theorem writer_upload_request_shape (repo loc : String) (size : Nat)
    (bufs : List (List Nat)) (h1 : bufs ≠ []) (h2 : ∀ b ∈ bufs, b ≠ [])
    (h3 : totalLen bufs = size) :
    (bufs.length = 1 →
      (runWrites repo loc (WriterState.init size) bufs).1
        = [Request.post repo bufs.flatten (digestStr bufs.flatten)]) ∧
    (2 ≤ bufs.length →
      (runWrites repo loc (WriterState.init size) bufs).1
        = Request.start repo :: chunkReqs loc size 0 [] bufs) ∧
    ((∃ r ∈ (runWrites repo loc (WriterState.init size) bufs).1,
        r.kind = RequestKind.post) ↔ bufs.length = 1) ∧
    (2 ≤ bufs.length →
      (runWrites repo loc (WriterState.init size) bufs).1.map Request.kind
        = RequestKind.start ::
            (List.replicate (bufs.length - 1) RequestKind.patch
              ++ [RequestKind.put]) ∧
      rangesChained 0
        (reqRanges (runWrites repo loc (WriterState.init size) bufs).1) = true ∧
      ∃ mids lastBuf,
        (runWrites repo loc (WriterState.init size) bufs).1
          = Request.start repo :: (mids
              ++ [Request.put loc lastBuf (digestStr bufs.flatten)
                   (size - lastBuf.length) size]) ∧
        ∀ r ∈ mids, r.kind = RequestKind.patch) := by
  cases bufs with
  | nil => exact absurd rfl h1
  | cons b bs =>
    cases bs with
    | nil =>
      have hb : b.length = size := by simpa [totalLen] using h3
      rw [runWrites_single repo loc size b hb]
      refine ⟨fun _ => by simp, fun hlen => by simp at hlen, ?_, fun hlen => by simp at hlen⟩
      simp [Request.kind]
    | cons b2 bs2 =>
      rw [runWrites_multi repo loc size b b2 bs2 h2 h3]
      have hlen2 : ¬ (b :: b2 :: bs2).length = 1 := by simp
      refine ⟨fun hlen => absurd hlen hlen2, fun _ => rfl, ?_, fun _ => ⟨?_, ?_, ?_⟩⟩
      · simp only [hlen2, iff_false]
        rintro ⟨r, hr, hkind⟩
        rcases List.mem_cons.mp hr with h | h
        · rw [h] at hkind; simp [Request.kind] at hkind
        · exact chunkReqs_no_post _ _ _ _ _ r h hkind
      · simp only [List.map_cons, Request.kind]
        rw [chunkReqs_kinds _ _ _ _ _ (by simp)]
      · show rangesChained 0 (reqRanges (Request.start repo :: _)) = true
        rw [show ∀ l, reqRanges (Request.start repo :: l) = reqRanges l from fun l => rfl]
        exact chunkReqs_ranges _ _ _ _ _ h2 (by simpa using h3)
      · obtain ⟨mids, lastBuf, heq, hpatch⟩ :=
          chunkReqs_split (b :: b2 :: bs2) loc size 0 [] (by simp) (by simpa using h3)
        refine ⟨mids, lastBuf, ?_, hpatch⟩
        rw [heq]
        simp

/-- C1 witness: the amended chunked trace at a concrete two-write
upload. -/
theorem writer_upload_request_shape_witness :
    (runWrites "r" "L" (WriterState.init 3) [[1], [2, 3]]).1
      = Request.start "r" :: chunkReqs "L" 3 0 [] [[1], [2, 3]] :=
  (writer_upload_request_shape "r" "L" 3 [[1], [2, 3]]
    (by decide) (by decide) (by decide)).2.1 (by decide)

/-- C2: for every successful push the returned descriptor reflects
exactly the bytes pushed. `Writer::layer()` returns a `Layer` whose
digest is `sha256:` plus the lowercase hex SHA-256 of all bytes
written, whose size is the number of bytes written, with platform
`None`; and `Registry::push_manifest` on a successful PUT returns a
`Layer` whose size is the byte length of the serialized value and
whose digest is `sha256:` plus the hex SHA-256 of those bytes. -/
theorem push_descriptor_reflects_bytes (repo loc : String) (size : Nat)
    (bufs : List (List Nat)) (mt : MediaType) (h1 : bufs ≠ [])
    (h2 : ∀ b ∈ bufs, b ≠ []) (h3 : totalLen bufs = size) :
    Writer.layer mt (runWrites repo loc (WriterState.init size) bufs).2
      = { media_type := mt, size := totalLen bufs,
          digest := digestStr bufs.flatten, platform := Option.none } ∧
    (∀ (bytes : List Nat) (mt2 : MediaType) (p : Option Platform) (l : Layer),
      Registry.push_manifest mt2 bytes p true = .ok l →
      l.size = bytes.length ∧ l.digest = digestStr bytes ∧ l.platform = p) := by
  constructor
  · cases bufs with
    | nil => exact absurd rfl h1
    | cons b bs =>
      cases bs with
      | nil =>
        have hb : b.length = size := by simpa [totalLen] using h3
        rw [runWrites_single repo loc size b hb]
        simp [Writer.layer, totalLen, hb]
      | cons b2 bs2 =>
        rw [runWrites_multi repo loc size b b2 bs2 h2 h3]
        simp [Writer.layer, h3]
  · intro bytes mt2 p l heq
    simp only [Registry.push_manifest, if_pos rfl] at heq
    have hl := (Except.ok.injEq _ _).mp heq
    rw [← hl]
    exact ⟨rfl, rfl, rfl⟩

/-- C2 witness: the descriptor after a concrete two-write upload, and
a concrete manifest push. -/
theorem push_descriptor_reflects_bytes_witness :
    Writer.layer MediaType.config
        (runWrites "r" "L" (WriterState.init 3) [[1], [2, 3]]).2
      = { media_type := MediaType.config, size := totalLen [[1], [2, 3]],
          digest := digestStr ([[1], [2, 3]] : List (List Nat)).flatten,
          platform := Option.none } ∧
    ((Registry.push_manifest MediaType.imageIndex [123] Option.none true).map
        Layer.size) = .ok 1 := by
  constructor
  · exact (push_descriptor_reflects_bytes "r" "L" 3 [[1], [2, 3]] MediaType.config
      (by decide) (by decide) (by decide)).1
  · rfl

end Ocilot
